import Mathlib

/-!
Verification of the annotation aggregation logic of
`scripts/convert_to_coco.py` (Plant Village Blueberry dataset).

The Python functions `read_split_list`, `parse_csv_boxes` and
`collect_annotations_for_split` are embedded as pure Lean functions over an
explicit filesystem model `FS`.  CSV rows are modelled as association lists
from column names to already-tokenised field values (`FieldVal`); a `FieldVal` is
an integer literal, a non-integer numeric literal, or unparsable text, which
is exactly the distinction Python's `int(...)` / `float(...)` calls make on
the raw strings of a well-formed CSV data row.  Numeric values are modelled
as rationals (exact values of the finite floats involved).
-/

/-- A tokenised CSV field value: an integer literal (accepted by both
`int()` and `float()`), a non-integer numeric literal (accepted by
`float()` only), or text that neither parser accepts. -/
inductive FieldVal where
  | intVal (n : ℤ)
  | floatVal (q : ℚ)
  | junk
deriving DecidableEq

/-- A CSV data row as produced by `csv.DictReader`: an association list from
header column names to field values (first binding wins, as in a dict). -/
abbrev Row := List (String × FieldVal)

/-- Dictionary lookup: `row.get(k)` / `k in row`. -/
def rowGet (r : Row) (k : String) : Option FieldVal :=
  (r.find? (fun p => p.1 == k)).map (fun p => p.2)

/-- `k in row` membership test on the column names. -/
def hasKey (r : Row) (k : String) : Bool :=
  (rowGet r k).isSome

/-- Python `float(v)`: succeeds on any numeric literal. -/
def floatParse : FieldVal → Option ℚ
  | .intVal n => some (n : ℚ)
  | .floatVal q => some q
  | .junk => none

/-- Python `int(v)`: succeeds on integer literals only. -/
def intParse : FieldVal → Option ℤ
  | .intVal n => some n
  | _ => none

/-- `row.get('x', 0)`. -/
def xField (r : Row) : FieldVal := (rowGet r "x").getD (.intVal 0)

/-- `row.get('y', 0)`. -/
def yField (r : Row) : FieldVal := (rowGet r "y").getD (.intVal 0)

/-- `row.get('width', row.get('w', row.get('dx', 0)))`. -/
def widthField (r : Row) : FieldVal :=
  ((rowGet r "width").or ((rowGet r "w").or (rowGet r "dx"))).getD (.intVal 0)

/-- `row.get('height', row.get('h', row.get('dy', 0)))`. -/
def heightField (r : Row) : FieldVal :=
  ((rowGet r "height").or ((rowGet r "h").or (rowGet r "dy"))).getD (.intVal 0)

/-- `row.get('label', 1)`. -/
def labelField (r : Row) : FieldVal := (rowGet r "label").getD (.intVal 1)

/-- One parsed bounding box as appended to `boxes` in `parse_csv_boxes`. -/
structure Box where
  bbox : List ℚ
  area : ℚ
  category_id : ℤ
deriving DecidableEq

/-- The body of the `for row in reader` loop of `parse_csv_boxes`:
`some b` when the row appends a box, `none` when the row is skipped
(comment row, parse error, or non-positive width/height). -/
def parseRow (r : Row) : Option Box :=
  if (rowGet r "#item").isNone && !(hasKey r "item") then none
  else if !(hasKey r (if hasKey r "#item" then "#item" else "item")) then none
  else
    match floatParse (xField r), floatParse (yField r),
          floatParse (widthField r), floatParse (heightField r),
          intParse (labelField r) with
    | some x, some y, some w, some h, some lab =>
        if 0 < w ∧ 0 < h then some ⟨[x, y, w, h], w * h, lab⟩ else none
    | _, _, _, _, _ => none

/-- `parse_csv_boxes` applied to the data rows of an existing CSV file. -/
def parse_csv_boxes : List Row → List Box
  | [] => []
  | r :: rest =>
    match parseRow r with
    | some b => b :: parse_csv_boxes rest
    | none => parse_csv_boxes rest

/-- An image file on disk: `blueberries/{subcat}/images/{stem}{ext}` with
its pixel dimensions as PIL would report them. -/
structure ImgFile where
  subcat : String
  stem : String
  ext : String
  width : ℕ
  height : ℕ
deriving DecidableEq

/-- A CSV file on disk: `blueberries/{subcat}/csv/{stem}.csv`. -/
structure CsvFile where
  subcat : String
  stem : String
  rows : List Row
deriving DecidableEq

/-- The filesystem contents seen by `collect_annotations_for_split`:
the split membership file (`none` when `sets/{split}.txt` does not exist,
otherwise its raw lines), the image files and the CSV files under the
category root. -/
structure FS where
  splitLines : Option (List String)
  images : List ImgFile
  csvs : List CsvFile
deriving DecidableEq

/-- ASCII whitespace as stripped by Python's `str.strip()`. -/
def isSpaceChar (c : Char) : Bool :=
  c == ' ' || c == '\t' || c == '\n' || c == '\r' || c == '\x0b' || c == '\x0c'

/-- Python `line.strip()`: drop leading and trailing whitespace. -/
def pyStrip (s : String) : String :=
  ⟨((s.data.dropWhile isSpaceChar).reverse.dropWhile isSpaceChar).reverse⟩

/-- Lexicographic comparison of character lists by code point, as Python
compares strings. -/
def lexLe : List Char → List Char → Bool
  | [], _ => true
  | _ :: _, [] => false
  | c :: cs, d :: ds =>
    decide (c.toNat < d.toNat) || (c.toNat == d.toNat && lexLe cs ds)

/-- Python string ordering `a <= b` (code-point lexicographic). -/
def pyLe (a b : String) : Prop := lexLe a.data b.data = true

instance : DecidableRel pyLe := fun a b => by unfold pyLe; infer_instance

/-- `read_split_list`: strip each line, drop blanks; `[]` when missing. -/
def read_split_list (splitLines : Option (List String)) : List String :=
  match splitLines with
  | none => []
  | some lines => (lines.map pyStrip).filter (fun l => !(l == ""))

/-- `test_path.exists()` for `{subcat}/images/{stem}{ext}`. -/
def hasImage (imgs : List ImgFile) (s stem ext : String) : Bool :=
  imgs.any (fun i => i.subcat == s && i.stem == stem && i.ext == ext)

/-- `image_size`: the PIL dimensions of the file at
`{subcat}/images/{stem}{ext}` (junk value `(0,0)` when absent). -/
def image_size (imgs : List ImgFile) (s stem ext : String) : ℕ × ℕ :=
  match imgs.find? (fun i => i.subcat == s && i.stem == stem && i.ext == ext) with
  | some i => (i.width, i.height)
  | none => (0, 0)

/-- `csv_path.exists()` plus reading it: the rows of
`{subcat}/csv/{stem}.csv` when that file exists. -/
def findCsv (csvs : List CsvFile) (s stem : String) : Option (List Row) :=
  (csvs.find? (fun c => c.subcat == s && c.stem == stem)).map (fun c => c.rows)

/-- `subcategory_names = ['healthy', 'background']`. -/
def subcategory_names : List String := ["healthy", "background"]

/-- The extension list tried by the resolution loop. -/
def extOrder : List String := [".png", ".jpg", ".JPG", ".PNG", ".jpeg", ".JPEG"]

/-- The inner `for ext in [...]` loop: first extension under which
`{subcat}/images/{stem}{ext}` exists. -/
def findExt (imgs : List ImgFile) (s stem : String) : Option String :=
  extOrder.find? (fun e => hasImage imgs s stem e)

/-- The nested resolution loops: the first (subcategory, extension) pair, in
priority order, under which the image file exists. -/
def resolve (imgs : List ImgFile) (stem : String) : Option (String × String) :=
  subcategory_names.findSome? (fun s => (findExt imgs s stem).map (fun e => (s, e)))

/-- `category_id_map.get(subcategory, 1)`. -/
def category_id_map (s : String) : ℤ :=
  if s = "healthy" then 1 else if s = "background" then 2 else 1

/-- A COCO image record. -/
structure ImageRec where
  id : ℕ
  file_name : String
  width : ℕ
  height : ℕ
deriving DecidableEq

/-- A COCO annotation record. -/
structure AnnRec where
  id : ℕ
  image_id : ℕ
  category_id : ℤ
  bbox : List ℚ
  area : ℚ
  iscrowd : ℕ
deriving DecidableEq

/-- A COCO category record. -/
structure CatRec where
  id : ℕ
  name : String
  supercategory : String
deriving DecidableEq

/-- The fixed `categories` list built before the loop. -/
def cocoCategories : List CatRec :=
  [⟨1, "healthy", "blueberry"⟩, ⟨2, "background_without_leaves", "blueberry"⟩]

/-- The image record appended for a resolved stem. -/
def mkImage (imgs : List ImgFile) (stem s e : String) (i : ℕ) : ImageRec :=
  ⟨i, "blueberries/" ++ s ++ "/images/" ++ stem ++ e,
   (image_size imgs s stem e).1, (image_size imgs s stem e).2⟩

/-- The synthetic full-image annotation record. -/
def syntheticAnn (a i : ℕ) (c : ℤ) (w h : ℕ) : AnnRec :=
  ⟨a, i, c, [0, 0, (w : ℚ), (h : ℚ)], (w : ℚ) * (h : ℚ), 0⟩

/-- The annotation record appended for one CSV box. -/
def boxAnn (a i : ℕ) (b : Box) : AnnRec :=
  ⟨a, i, b.category_id, b.bbox, b.area, 0⟩

/-- The `for box in boxes` loop: one annotation record per box, annotation
ids counting up from `a`. -/
def numberBoxes (a i : ℕ) : List Box → List AnnRec
  | [] => []
  | b :: rest => boxAnn a i b :: numberBoxes (a + 1) i rest

/-- The annotation records emitted for one resolved stem (the body of the
main loop after the image record is appended). -/
def annBlock (imgs : List ImgFile) (csvs : List CsvFile) (s e stem : String)
    (i a : ℕ) : List AnnRec :=
  let d := image_size imgs s stem e
  let defCat := category_id_map s
  match findCsv csvs s stem with
  | some rows =>
    let boxes := parse_csv_boxes rows
    if boxes.isEmpty then [syntheticAnn a i defCat d.1 d.2]
    else numberBoxes a i boxes
  | none => [syntheticAnn a i defCat d.1 d.2]

/-- The main `for stem in sorted(image_stems)` loop, with the two identifier
counters threaded through. -/
def processStems (imgs : List ImgFile) (csvs : List CsvFile) :
    List String → ℕ → ℕ → List ImageRec × List AnnRec
  | [], _, _ => ([], [])
  | stem :: rest, i, a =>
    match resolve imgs stem with
    | none => processStems imgs csvs rest i a
    | some (s, e) =>
      let blk := annBlock imgs csvs s e stem i a
      let p := processStems imgs csvs rest (i + 1) (a + blk.length)
      (mkImage imgs stem s e i :: p.1, blk ++ p.2)

/-- The extensions enumerated by the fallback directory scan
(`glob("*.png")`, `glob("*.jpg")`, `glob("*.JPG")`). -/
def globExts : List String := [".png", ".jpg", ".JPG"]

/-- The fallback enumeration: stems of image files in the `images`
directory of every subdirectory other than `sets`, for the three glob
patterns. -/
def fallbackStems (imgs : List ImgFile) : List String :=
  (imgs.filter (fun i => !(i.subcat == "sets") && globExts.contains i.ext)).map
    (fun i => i.stem)

/-- The stems list before dedup/sort: the split file entries when any,
otherwise the fallback scan. -/
def splitStems (fs : FS) : List String :=
  let l := read_split_list fs.splitLines
  if l.isEmpty then fallbackStems fs.images else l

/-- `sorted(image_stems)` where `image_stems` is a Python set: the distinct
stems in increasing code-point lexicographic order. -/
def sortedStems (fs : FS) : List String :=
  List.insertionSort pyLe (splitStems fs).dedup

/-- `collect_annotations_for_split`: the (images, annotations, categories)
triple for one split. -/
def collect_annotations_for_split (fs : FS) :
    List ImageRec × List AnnRec × List CatRec :=
  let p := processStems fs.images fs.csvs (sortedStems fs) 1 1
  (p.1, p.2, cocoCategories)

theorem char_toNat_inj {a b : Char} (h : a.toNat = b.toNat) : a = b := by
  cases a; cases b
  simp only [Char.toNat] at h
  congr 1
  exact UInt32.ext h

theorem lexLe_cons_iff {c d : Char} {cs ds : List Char} :
    lexLe (c :: cs) (d :: ds) = true ↔
      c.toNat < d.toNat ∨ (c.toNat = d.toNat ∧ lexLe cs ds = true) := by
  simp [lexLe]

theorem lexLe_total : ∀ a b : List Char, lexLe a b = true ∨ lexLe b a = true
  | [], _ => Or.inl rfl
  | _ :: _, [] => Or.inr rfl
  | c :: cs, d :: ds => by
    rcases Nat.lt_trichotomy c.toNat d.toNat with h | h | h
    · exact Or.inl (lexLe_cons_iff.mpr (Or.inl h))
    · rcases lexLe_total cs ds with ih | ih
      · exact Or.inl (lexLe_cons_iff.mpr (Or.inr ⟨h, ih⟩))
      · exact Or.inr (lexLe_cons_iff.mpr (Or.inr ⟨h.symm, ih⟩))
    · exact Or.inr (lexLe_cons_iff.mpr (Or.inl h))

theorem lexLe_trans : ∀ {a b c : List Char},
    lexLe a b = true → lexLe b c = true → lexLe a c = true
  | [], _, _, _, _ => rfl
  | _ :: _, [], _, hab, _ => by simp [lexLe] at hab
  | _ :: _, _ :: _, [], _, hbc => by simp [lexLe] at hbc
  | x :: xs, y :: ys, z :: zs, hab, hbc => by
    rw [lexLe_cons_iff] at hab hbc ⊢
    rcases hab with h1 | ⟨h1, h1'⟩ <;> rcases hbc with h2 | ⟨h2, h2'⟩
    · exact Or.inl (h1.trans h2)
    · exact Or.inl (h2 ▸ h1)
    · exact Or.inl (h1 ▸ h2)
    · exact Or.inr ⟨h1.trans h2, lexLe_trans h1' h2'⟩

theorem lexLe_antisymm : ∀ {a b : List Char},
    lexLe a b = true → lexLe b a = true → a = b
  | [], [], _, _ => rfl
  | [], _ :: _, _, hba => by simp [lexLe] at hba
  | _ :: _, [], hab, _ => by simp [lexLe] at hab
  | x :: xs, y :: ys, hab, hba => by
    rw [lexLe_cons_iff] at hab hba
    rcases hab with h1 | ⟨h1, h1'⟩ <;> rcases hba with h2 | ⟨h2, h2'⟩
    · omega
    · omega
    · omega
    · rw [char_toNat_inj h1, lexLe_antisymm h1' h2']

instance : IsTotal String pyLe := ⟨fun a b => lexLe_total a.data b.data⟩

instance : IsTrans String pyLe := ⟨fun _ _ _ => lexLe_trans⟩

instance : IsAntisymm String pyLe :=
  ⟨fun _ _ h1 h2 => String.ext (lexLe_antisymm h1 h2)⟩

theorem numberBoxes_length (a i : ℕ) (B : List Box) :
    (numberBoxes a i B).length = B.length := by
  induction B generalizing a with
  | nil => rfl
  | cons b rest ih => simp [numberBoxes, ih]

theorem numberBoxes_map_id (a i : ℕ) (B : List Box) :
    (numberBoxes a i B).map (fun r => r.id) = List.range' a B.length := by
  induction B generalizing a with
  | nil => rfl
  | cons b rest ih => simp [numberBoxes, boxAnn, List.range'_succ, ih]

theorem mem_numberBoxes {r : AnnRec} :
    ∀ {a i : ℕ} {B : List Box}, r ∈ numberBoxes a i B →
      ∃ b ∈ B, r.image_id = i ∧ r.bbox = b.bbox ∧ r.area = b.area ∧
        r.category_id = b.category_id ∧ r.iscrowd = 0 := by
  intro a i B
  induction B generalizing a with
  | nil => intro h; cases h
  | cons b rest ih =>
    intro h
    rcases h with _ | ⟨_, hmem⟩
    · exact ⟨b, List.mem_cons_self b rest, rfl, rfl, rfl, rfl, rfl⟩
    · obtain ⟨b', hb', hprops⟩ := ih hmem
      exact ⟨b', List.mem_cons_of_mem b hb', hprops⟩

theorem annBlock_length_pos (imgs : List ImgFile) (csvs : List CsvFile)
    (s e stem : String) (i a : ℕ) :
    0 < (annBlock imgs csvs s e stem i a).length := by
  unfold annBlock
  cases hc : findCsv csvs s stem with
  | none => simp
  | some rows =>
    cases hpb : parse_csv_boxes rows with
    | nil => simp [hpb]
    | cons b rest => simp [hpb, numberBoxes_length]

theorem annBlock_map_id (imgs : List ImgFile) (csvs : List CsvFile)
    (s e stem : String) (i a : ℕ) :
    (annBlock imgs csvs s e stem i a).map (fun r => r.id) =
      List.range' a (annBlock imgs csvs s e stem i a).length := by
  unfold annBlock
  cases hc : findCsv csvs s stem with
  | none => simp [syntheticAnn]
  | some rows =>
    by_cases hb : (parse_csv_boxes rows).isEmpty
    · simp [hb, syntheticAnn]
    · simp [hb, numberBoxes_map_id, numberBoxes_length]

theorem mem_annBlock {r : AnnRec} {imgs : List ImgFile} {csvs : List CsvFile}
    {s e stem : String} {i a : ℕ}
    (h : r ∈ annBlock imgs csvs s e stem i a) :
    r.image_id = i ∧
      (r = syntheticAnn r.id i (category_id_map s)
          (image_size imgs s stem e).1 (image_size imgs s stem e).2 ∨
        ∃ rows, findCsv csvs s stem = some rows ∧
          ∃ b ∈ parse_csv_boxes rows,
            r.bbox = b.bbox ∧ r.area = b.area ∧ r.iscrowd = 0) := by
  cases hc : findCsv csvs s stem with
  | none =>
    simp only [annBlock, hc] at h
    rcases h with _ | ⟨_, hmem⟩
    · exact ⟨rfl, Or.inl rfl⟩
    · cases hmem
  | some rows =>
    simp only [annBlock, hc] at h
    by_cases hb : (parse_csv_boxes rows).isEmpty
    · rw [if_pos hb] at h
      rcases h with _ | ⟨_, hmem⟩
      · exact ⟨rfl, Or.inl rfl⟩
      · cases hmem
    · rw [if_neg hb] at h
      obtain ⟨b, hbmem, him, hbb, har, hcat, hcrowd⟩ := mem_numberBoxes h
      exact ⟨him, Or.inr ⟨rows, rfl, b, hbmem, hbb, har, hcrowd⟩⟩

theorem parse_csv_boxes_eq_filterMap (rows : List Row) :
    parse_csv_boxes rows = rows.filterMap parseRow := by
  induction rows with
  | nil => rfl
  | cons r rest ih => cases h : parseRow r <;> simp [parse_csv_boxes, h, ih]

theorem parseRow_some_shape {r : Row} {b : Box} (hp : parseRow r = some b) :
    ∃ x y w h : ℚ, b.bbox = [x, y, w, h] ∧ b.area = w * h ∧ 0 < w ∧ 0 < h := by
  unfold parseRow at hp
  by_cases h1 : ((rowGet r "#item").isNone && !(hasKey r "item")) = true
  · rw [if_pos h1] at hp; cases hp
  · rw [if_neg h1] at hp
    by_cases h2 : (!(hasKey r (if hasKey r "#item" then "#item" else "item"))) = true
    · rw [if_pos h2] at hp; cases hp
    · rw [if_neg h2] at hp
      rcases hx : floatParse (xField r) with _ | x <;>
        rcases hy : floatParse (yField r) with _ | y <;>
          rcases hw : floatParse (widthField r) with _ | w <;>
            rcases hh : floatParse (heightField r) with _ | h <;>
              rcases hl : intParse (labelField r) with _ | lab <;>
                simp only [hx, hy, hw, hh, hl] at hp <;> try cases hp
      by_cases hcond : 0 < w ∧ 0 < h
      · rw [if_pos hcond] at hp
        injection hp with hp'
        subst hp'
        exact ⟨x, y, w, h, rfl, rfl, hcond.1, hcond.2⟩
      · rw [if_neg hcond] at hp; cases hp

/-- The image records by themselves: the id counter advances by one per
resolved stem, and unresolved stems leave no trace. -/
def imagesFrom (imgs : List ImgFile) : List String → ℕ → List ImageRec
  | [], _ => []
  | stem :: rest, i =>
    match resolve imgs stem with
    | none => imagesFrom imgs rest i
    | some (s, e) => mkImage imgs stem s e i :: imagesFrom imgs rest (i + 1)

theorem range1_append (s m n : ℕ) :
    List.range' s m ++ List.range' (s + m) n = List.range' s (m + n) := by
  have h := List.range'_append s m n 1
  rw [Nat.one_mul, Nat.add_comm n m] at h
  exact h

theorem processStems_fst (imgs : List ImgFile) (csvs : List CsvFile) :
    ∀ (l : List String) (i a : ℕ),
      (processStems imgs csvs l i a).1 = imagesFrom imgs l i := by
  intro l
  induction l with
  | nil => intro i a; rfl
  | cons stem rest ih =>
    intro i a
    rcases hr : resolve imgs stem with _ | ⟨s, e⟩ <;>
      simp only [processStems, imagesFrom, hr, ih]

theorem processStems_img_ids (imgs : List ImgFile) (csvs : List CsvFile) :
    ∀ (l : List String) (i a : ℕ),
      (processStems imgs csvs l i a).1.map (fun r => r.id) =
        List.range' i (processStems imgs csvs l i a).1.length := by
  intro l
  induction l with
  | nil => intro i a; rfl
  | cons stem rest ih =>
    intro i a
    rcases hr : resolve imgs stem with _ | ⟨s, e⟩
    · simp only [processStems, hr, ih]
    · simp only [processStems, hr, List.map_cons, List.length_cons, ih,
        mkImage, List.range'_succ]

theorem processStems_ann_ids (imgs : List ImgFile) (csvs : List CsvFile) :
    ∀ (l : List String) (i a : ℕ),
      (processStems imgs csvs l i a).2.map (fun r => r.id) =
        List.range' a (processStems imgs csvs l i a).2.length := by
  intro l
  induction l with
  | nil => intro i a; rfl
  | cons stem rest ih =>
    intro i a
    rcases hr : resolve imgs stem with _ | ⟨s, e⟩
    · simp only [processStems, hr, ih]
    · simp only [processStems, hr, List.map_append, List.length_append,
        annBlock_map_id, ih, annBlock_length_pos, range1_append]

theorem processStems_image_id_ge (imgs : List ImgFile) (csvs : List CsvFile) :
    ∀ (l : List String) (i a : ℕ) (r : AnnRec),
      r ∈ (processStems imgs csvs l i a).2 → i ≤ r.image_id := by
  intro l
  induction l with
  | nil => intro i a r h; cases h
  | cons stem rest ih =>
    intro i a r h
    rcases hr : resolve imgs stem with _ | ⟨s, e⟩
    · rw [processStems, hr] at h
      exact ih i a r h
    · rw [processStems, hr] at h
      rcases List.mem_append.mp h with hblk | hrest
      · exact le_of_eq (mem_annBlock hblk).1.symm
      · exact Nat.le_of_succ_le (ih (i + 1) _ r hrest)

theorem processStems_mem_images (imgs : List ImgFile) (csvs : List CsvFile) :
    ∀ (l : List String) (i a : ℕ) (r : AnnRec),
      r ∈ (processStems imgs csvs l i a).2 →
        ∃ img ∈ (processStems imgs csvs l i a).1, img.id = r.image_id := by
  intro l
  induction l with
  | nil => intro i a r h; cases h
  | cons stem rest ih =>
    intro i a r h
    rcases hr : resolve imgs stem with _ | ⟨s, e⟩
    · rw [processStems, hr] at h ⊢
      exact ih i a r h
    · rw [processStems, hr] at h ⊢
      rcases List.mem_append.mp h with hblk | hrest
      · exact ⟨mkImage imgs stem s e i, List.mem_cons_self _ _,
          (mem_annBlock hblk).1.symm⟩
      · obtain ⟨img, himg, hid⟩ := ih (i + 1) _ r hrest
        exact ⟨img, List.mem_cons_of_mem _ himg, hid⟩

theorem processStems_mem_shape (imgs : List ImgFile) (csvs : List CsvFile) :
    ∀ (l : List String) (i a : ℕ) (r : AnnRec),
      r ∈ (processStems imgs csvs l i a).2 →
        ∃ stem s e j b, resolve imgs stem = some (s, e) ∧
          r ∈ annBlock imgs csvs s e stem j b := by
  intro l
  induction l with
  | nil => intro i a r h; cases h
  | cons stem rest ih =>
    intro i a r h
    rcases hr : resolve imgs stem with _ | ⟨s, e⟩
    · rw [processStems, hr] at h
      exact ih i a r h
    · rw [processStems, hr] at h
      rcases List.mem_append.mp h with hblk | hrest
      · exact ⟨stem, s, e, i, a, hr, hblk⟩
      · exact ih (i + 1) _ r hrest

theorem processStems_skip_unresolved (imgs : List ImgFile) (csvs : List CsvFile) :
    ∀ (l : List String) (i a : ℕ),
      processStems imgs csvs l i a =
        processStems imgs csvs (l.filter (fun st => (resolve imgs st).isSome)) i a := by
  intro l
  induction l with
  | nil => intro i a; rfl
  | cons stem rest ih =>
    intro i a
    rcases hr : resolve imgs stem with _ | ⟨s, e⟩
    · rw [processStems, hr, List.filter_cons_of_neg (by simp [hr]), ih]
    · rw [List.filter_cons_of_pos (by simp [hr])]
      simp only [processStems, hr, ih]

theorem processStems_filter_image_id (imgs : List ImgFile) (csvs : List CsvFile) :
    ∀ (l : List String) (i a : ℕ) (stem s e : String),
      resolve imgs stem = some (s, e) → stem ∈ l →
        ∃ j b, i ≤ j ∧
          mkImage imgs stem s e j ∈ (processStems imgs csvs l i a).1 ∧
          (processStems imgs csvs l i a).2.filter (fun r => r.image_id == j) =
            annBlock imgs csvs s e stem j b := by
  intro l
  induction l with
  | nil => intro i a stem s e _ hmem; cases hmem
  | cons hd rest ih =>
    intro i a stem s e hres hmem
    rcases List.mem_cons.mp hmem with heq | htl
    · subst heq
      rw [processStems, hres]
      refine ⟨i, a, le_refl i, List.mem_cons_self _ _, ?_⟩
      rw [List.filter_append]
      have h1 : (annBlock imgs csvs s e stem i a).filter
          (fun r => r.image_id == i) = annBlock imgs csvs s e stem i a :=
        List.filter_eq_self.mpr fun r hr => by
          simp [(mem_annBlock hr).1]
      have h2 : (processStems imgs csvs rest (i + 1)
          (a + (annBlock imgs csvs s e stem i a).length)).2.filter
            (fun r => r.image_id == i) = [] :=
        List.filter_eq_nil_iff.mpr fun r hr => by
          have := processStems_image_id_ge imgs csvs rest (i + 1) _ r hr
          simp only [beq_iff_eq]
          omega
      rw [h1, h2, List.append_nil]
    · rcases hr : resolve imgs hd with _ | ⟨s', e'⟩
      · rw [processStems, hr]
        exact ih i a stem s e hres htl
      · rw [processStems, hr]
        obtain ⟨j, b, hij, himg, hfilter⟩ := ih (i + 1)
          (a + (annBlock imgs csvs s' e' hd i a).length) stem s e hres htl
        refine ⟨j, b, Nat.le_of_succ_le hij, List.mem_cons_of_mem _ himg, ?_⟩
        rw [List.filter_append]
        have h1 : (annBlock imgs csvs s' e' hd i a).filter
            (fun r => r.image_id == j) = [] :=
          List.filter_eq_nil_iff.mpr fun r hr => by
            have := (mem_annBlock hr).1
            simp only [beq_iff_eq]
            omega
        rw [h1, hfilter, List.nil_append]

/-- The full nested-loop search order: all (subcategory, extension) pairs,
subcategory-major, in the code's priority order. -/
def searchOrder : List (String × String) :=
  (subcategory_names.map (fun s => extOrder.map (fun e => (s, e)))).flatten

theorem find?_map_pair (s : String) (es : List String) (f : String → String → Bool) :
    (es.map (fun e => (s, e))).find? (fun p => f p.1 p.2) =
      (es.find? (f s)).map (fun e => (s, e)) := by
  induction es with
  | nil => rfl
  | cons e rest ih =>
    simp only [List.map_cons, List.find?_cons]
    cases h : f s e <;> simp [h, ih]

theorem findSome?_flatten_find? (ss es : List String) (f : String → String → Bool) :
    ss.findSome? (fun s => (es.find? (f s)).map (fun e => (s, e))) =
      ((ss.map (fun s => es.map (fun e => (s, e)))).flatten).find?
        (fun p => f p.1 p.2) := by
  induction ss with
  | nil => rfl
  | cons s rest ih =>
    rw [List.map_cons, List.flatten_cons, List.find?_append, ← ih,
      find?_map_pair s es f]
    cases h : (es.find? (f s)).map (fun e => (s, e)) <;>
      simp [List.findSome?_cons, h]

theorem resolve_eq_find? (imgs : List ImgFile) (stem : String) :
    resolve imgs stem =
      searchOrder.find? (fun p => hasImage imgs p.1 stem p.2) := by
  unfold resolve searchOrder findExt
  exact findSome?_flatten_find? subcategory_names extOrder
    (fun s e => hasImage imgs s stem e)

theorem resolve_hasImage {imgs : List ImgFile} {stem s e : String}
    (h : resolve imgs stem = some (s, e)) : hasImage imgs s stem e = true := by
  rw [resolve_eq_find?] at h
  have hp := List.find?_some h
  simpa using hp

theorem image_size_mem {imgs : List ImgFile} {s stem e : String}
    (h : hasImage imgs s stem e = true) :
    ∃ img ∈ imgs, image_size imgs s stem e = (img.width, img.height) := by
  unfold hasImage at h
  rw [List.any_eq_true] at h
  obtain ⟨x, hx, hpx⟩ := h
  have hsome : (imgs.find? (fun i =>
      i.subcat == s && i.stem == stem && i.ext == e)).isSome := by
    rw [List.find?_isSome]
    exact ⟨x, hx, hpx⟩
  rcases hfind : imgs.find? (fun i =>
      i.subcat == s && i.stem == stem && i.ext == e) with _ | img
  · rw [hfind] at hsome; cases hsome
  · exact ⟨img, List.mem_of_find?_eq_some hfind, by unfold image_size; rw [hfind]⟩

theorem find?_perm_unique {α : Type} {p : α → Bool} {l₁ l₂ : List α}
    (h : l₁.Perm l₂)
    (hu : ∀ x ∈ l₁, ∀ y ∈ l₁, p x = true → p y = true → x = y) :
    l₁.find? p = l₂.find? p := by
  rcases h1 : l₁.find? p with _ | x
  · symm
    rw [List.find?_eq_none] at h1 ⊢
    exact fun x hx => h1 x (h.mem_iff.mpr hx)
  · have hx1 : x ∈ l₁ := List.mem_of_find?_eq_some h1
    have hpx : p x = true := List.find?_some h1
    have hsome : (l₂.find? p).isSome := by
      rw [List.find?_isSome]
      exact ⟨x, h.mem_iff.mp hx1, hpx⟩
    rcases h2 : l₂.find? p with _ | y
    · rw [h2] at hsome; cases hsome
    · have hy1 : y ∈ l₁ := h.mem_iff.mpr (List.mem_of_find?_eq_some h2)
      rw [hu x hx1 y hy1 hpx (List.find?_some h2)]

theorem any_perm {α : Type} {p : α → Bool} {l₁ l₂ : List α} (h : l₁.Perm l₂) :
    l₁.any p = l₂.any p := by
  cases h2 : l₂.any p
  · rw [List.any_eq_false] at h2 ⊢
    exact fun x hx => h2 x (h.mem_iff.mp hx)
  · rw [List.any_eq_true] at h2 ⊢
    obtain ⟨x, hx, hpx⟩ := h2
    exact ⟨x, h.mem_iff.mpr hx, hpx⟩

theorem findExt_congr {I₁ I₂ : List ImgFile} {s stem : String}
    (h : ∀ e, hasImage I₁ s stem e = hasImage I₂ s stem e) :
    findExt I₁ s stem = findExt I₂ s stem := by
  unfold findExt
  congr 1
  funext e
  exact h e

theorem resolve_congr {I₁ I₂ : List ImgFile} {stem : String}
    (h : ∀ s e, hasImage I₁ s stem e = hasImage I₂ s stem e) :
    resolve I₁ stem = resolve I₂ stem := by
  unfold resolve
  congr 1
  funext s
  rw [findExt_congr (fun e => h s e)]

theorem annBlock_congr {I₁ I₂ : List ImgFile} {C₁ C₂ : List CsvFile}
    {s e stem : String} {i a : ℕ}
    (h2 : image_size I₁ s stem e = image_size I₂ s stem e)
    (h3 : findCsv C₁ s stem = findCsv C₂ s stem) :
    annBlock I₁ C₁ s e stem i a = annBlock I₂ C₂ s e stem i a := by
  unfold annBlock
  rw [h2, h3]

theorem processStems_congr {I₁ I₂ : List ImgFile} {C₁ C₂ : List CsvFile}
    (h1 : ∀ s stem e, hasImage I₁ s stem e = hasImage I₂ s stem e)
    (h2 : ∀ s stem e, image_size I₁ s stem e = image_size I₂ s stem e)
    (h3 : ∀ s stem, findCsv C₁ s stem = findCsv C₂ s stem) :
    ∀ (l : List String) (i a : ℕ),
      processStems I₁ C₁ l i a = processStems I₂ C₂ l i a := by
  intro l
  induction l with
  | nil => intro i a; rfl
  | cons stem rest ih =>
    intro i a
    have hres : resolve I₁ stem = resolve I₂ stem :=
      resolve_congr (fun s e => h1 s stem e)
    rcases hr : resolve I₁ stem with _ | ⟨s, e⟩
    · rw [processStems, hr, processStems, ← hres, hr, ih]
    · have hblk : annBlock I₁ C₁ s e stem i a = annBlock I₂ C₂ s e stem i a :=
        annBlock_congr (h2 s stem e) (h3 s stem)

      simp only [processStems, hr, ← hres, hblk, ih, mkImage, h2 s stem e]

theorem mem_parse_csv_boxes_shape {rows : List Row} {b : Box}
    (h : b ∈ parse_csv_boxes rows) :
    ∃ x y w hq : ℚ, b.bbox = [x, y, w, hq] ∧ b.area = w * hq ∧ 0 < w ∧ 0 < hq := by
  rw [parse_csv_boxes_eq_filterMap] at h
  obtain ⟨r, _, hr⟩ := List.mem_filterMap.mp h
  exact parseRow_some_shape hr

theorem findCsv_mem {csvs : List CsvFile} {s stem : String} {rows : List Row}
    (h : findCsv csvs s stem = some rows) : ∃ c ∈ csvs, c.rows = rows := by
  unfold findCsv at h
  rcases hf : csvs.find? (fun c => c.subcat == s && c.stem == stem) with _ | c
  · rw [hf] at h; cases h
  · rw [hf] at h
    injection h with h'
    exact ⟨c, List.mem_of_find?_eq_some hf, h'⟩

theorem mem_sortedStems {fs : FS} {st : String} :
    st ∈ sortedStems fs ↔ st ∈ splitStems fs := by
  unfold sortedStems
  rw [List.mem_insertionSort, List.mem_dedup]

theorem sortedStems_eq_of_perm {l₁ l₂ : List String} (h : l₁.Perm l₂) :
    List.insertionSort pyLe l₁.dedup = List.insertionSort pyLe l₂.dedup :=
  List.eq_of_perm_of_sorted
    ((List.perm_insertionSort pyLe _).trans
      (h.dedup.trans (List.perm_insertionSort pyLe _).symm))
    (List.sorted_insertionSort pyLe _) (List.sorted_insertionSort pyLe _)

example : parse_csv_boxes [[("#item", .intVal 0), ("x", .intVal 1),
    ("y", .intVal 2), ("w", .intVal 3), ("h", .intVal 4)]] =
    [⟨[1, 2, 3, 4], 3 * 4, 1⟩] := rfl

example :
    collect_annotations_for_split ⟨some ["a"], [⟨"healthy", "a", ".png", 3, 2⟩], []⟩ =
      ([⟨1, "blueberries/healthy/images/a.png", 3, 2⟩],
       [⟨1, 1, 1, [0, 0, 3, 2], 3 * 2, 0⟩], cocoCategories) := rfl

example :
    collect_annotations_for_split ⟨some [" b ", "a", ""],
        [⟨"healthy", "a", ".png", 3, 2⟩, ⟨"background", "b", ".jpg", 5, 5⟩],
        [⟨"background", "b", [[("#item", .intVal 0), ("x", .intVal 1),
          ("y", .intVal 2), ("w", .intVal 3), ("h", .intVal 4), ("label", .intVal 2)]]⟩]⟩ =
      ([⟨1, "blueberries/healthy/images/a.png", 3, 2⟩,
        ⟨2, "blueberries/background/images/b.jpg", 5, 5⟩],
       [⟨1, 1, 1, [0, 0, 3, 2], 3 * 2, 0⟩,
        ⟨2, 2, 2, [1, 2, 3, 4], 3 * 4, 0⟩], cocoCategories) := rfl

/-- Example filesystem: one healthy image `a.png` (3×2) listed in the split
file, with no CSV annotation file. -/
def exFS1 : FS := ⟨some ["a"], [⟨"healthy", "a", ".png", 3, 2⟩], []⟩

/-- C3: for every split, image identifiers are exactly 1..N in increasing
order of sorted base names (each exactly once), and annotation identifiers
are exactly 1..M in emission order (each exactly once). -/
theorem claim_C3 (fs : FS) :
    (collect_annotations_for_split fs).1.map (fun r => r.id) =
        List.range' 1 (collect_annotations_for_split fs).1.length ∧
      ((collect_annotations_for_split fs).1.map (fun r => r.id)).Nodup ∧
      (collect_annotations_for_split fs).1 =
        imagesFrom fs.images (sortedStems fs) 1 ∧
      (collect_annotations_for_split fs).2.1.map (fun r => r.id) =
        List.range' 1 (collect_annotations_for_split fs).2.1.length ∧
      ((collect_annotations_for_split fs).2.1.map (fun r => r.id)).Nodup := by
  have hfst : (collect_annotations_for_split fs).1 =
      (processStems fs.images fs.csvs (sortedStems fs) 1 1).1 := rfl
  have hsnd : (collect_annotations_for_split fs).2.1 =
      (processStems fs.images fs.csvs (sortedStems fs) 1 1).2 := rfl
  rw [hfst, hsnd]
  refine ⟨processStems_img_ids fs.images fs.csvs (sortedStems fs) 1 1, ?_,
    processStems_fst fs.images fs.csvs (sortedStems fs) 1 1,
    processStems_ann_ids fs.images fs.csvs (sortedStems fs) 1 1, ?_⟩
  · rw [processStems_img_ids fs.images fs.csvs (sortedStems fs) 1 1]
    exact List.nodup_range' 1 _
  · rw [processStems_ann_ids fs.images fs.csvs (sortedStems fs) 1 1]
    exact List.nodup_range' 1 _

/-- C7: every annotation record's image_id equals the id of some image
record in the same output's images list. -/
theorem claim_C7 (fs : FS) (r : AnnRec)
    (hr : r ∈ (collect_annotations_for_split fs).2.1) :
    ∃ img ∈ (collect_annotations_for_split fs).1, img.id = r.image_id :=
  processStems_mem_images fs.images fs.csvs (sortedStems fs) 1 1 r hr

theorem claim_C7_witness :
    ∃ img ∈ (collect_annotations_for_split exFS1).1,
      img.id = (syntheticAnn 1 1 1 3 2).image_id :=
  claim_C7 exFS1 (syntheticAnn 1 1 1 3 2) (List.Mem.head _)

/-- C8: every emitted annotation record's area equals the product of the
third and fourth components of its bounding box. -/
theorem claim_C8 (fs : FS) (r : AnnRec)
    (hr : r ∈ (collect_annotations_for_split fs).2.1) :
    r.bbox.length = 4 ∧ r.area = r.bbox.getD 2 0 * r.bbox.getD 3 0 := by
  obtain ⟨stem, s, e, j, b, hres, hblk⟩ :=
    processStems_mem_shape fs.images fs.csvs (sortedStems fs) 1 1 r hr
  obtain ⟨him, hcase⟩ := mem_annBlock hblk
  rcases hcase with hsyn | ⟨rows, hcsv, bx, hbx, hbb, har, hcrowd⟩
  · rw [hsyn]
    exact ⟨rfl, rfl⟩
  · obtain ⟨x, y, w, hq, hbbx, harea, hw, hh⟩ := mem_parse_csv_boxes_shape hbx
    rw [hbb, har, hbbx, harea]
    exact ⟨rfl, rfl⟩

theorem claim_C8_witness :
    (syntheticAnn 1 1 1 3 2).bbox.length = 4 ∧
      (syntheticAnn 1 1 1 3 2).area =
        (syntheticAnn 1 1 1 3 2).bbox.getD 2 0 *
          (syntheticAnn 1 1 1 3 2).bbox.getD 3 0 :=
  claim_C8 exFS1 (syntheticAnn 1 1 1 3 2) (List.Mem.head _)

/-- C9: the subcategory directories are searched in a fixed priority order
(healthy before background, extensions in a fixed order) and the first
existing match resolves the image; unresolvable base names are skipped
without touching the identifier counters of the remaining resolvable
stems, which are processed in sorted base-name order. -/
theorem claim_C9 (fs : FS) :
    (∀ stem, resolve fs.images stem =
        searchOrder.find? (fun p => hasImage fs.images p.1 stem p.2)) ∧
      (∀ (l : List String) (i a : ℕ),
        processStems fs.images fs.csvs l i a =
          processStems fs.images fs.csvs
            (l.filter (fun st => (resolve fs.images st).isSome)) i a) ∧
      (sortedStems fs).Sorted pyLe :=
  ⟨fun stem => resolve_eq_find? fs.images stem,
    processStems_skip_unresolved fs.images fs.csvs,
    List.sorted_insertionSort pyLe _⟩

/-- C1: for every resolved image, annotations with its image id are exactly
the block the code emits for it: one record per parsed box when the CSV
file exists and yields boxes, otherwise exactly one synthetic full-image
annotation with bbox [0,0,width,height], area width*height and the matched
subcategory's default category id. -/
theorem claim_C1 (fs : FS) (stem s e : String)
    (hres : resolve fs.images stem = some (s, e))
    (hmem : stem ∈ sortedStems fs) :
    ∃ j b : ℕ,
      mkImage fs.images stem s e j ∈ (collect_annotations_for_split fs).1 ∧
      (collect_annotations_for_split fs).2.1.filter (fun r => r.image_id == j) =
        annBlock fs.images fs.csvs s e stem j b ∧
      (match findCsv fs.csvs s stem with
       | some rows =>
         if (parse_csv_boxes rows).isEmpty then
           annBlock fs.images fs.csvs s e stem j b =
             [syntheticAnn b j (category_id_map s)
               (image_size fs.images s stem e).1 (image_size fs.images s stem e).2]
         else
           (annBlock fs.images fs.csvs s e stem j b).length =
             (parse_csv_boxes rows).length
       | none =>
         annBlock fs.images fs.csvs s e stem j b =
           [syntheticAnn b j (category_id_map s)
             (image_size fs.images s stem e).1 (image_size fs.images s stem e).2]) := by
  obtain ⟨j, b, hij, himg, hfil⟩ := processStems_filter_image_id fs.images fs.csvs
    (sortedStems fs) 1 1 stem s e hres hmem
  refine ⟨j, b, himg, hfil, ?_⟩
  cases hc : findCsv fs.csvs s stem with
  | none => simp only [annBlock, hc]
  | some rows =>
    by_cases hb : (parse_csv_boxes rows).isEmpty
    · simp only [annBlock, hc, if_pos hb]
    · simp only [annBlock, hc, if_neg hb, numberBoxes_length]

theorem claim_C1_witness :
    resolve exFS1.images "a" = some ("healthy", ".png") ∧
      "a" ∈ sortedStems exFS1 ∧
      ∃ j b : ℕ,
        mkImage exFS1.images "a" "healthy" ".png" j ∈
          (collect_annotations_for_split exFS1).1 ∧
        (collect_annotations_for_split exFS1).2.1.filter
            (fun r => r.image_id == j) =
          annBlock exFS1.images exFS1.csvs "healthy" ".png" "a" j b ∧
        (match findCsv exFS1.csvs "healthy" "a" with
         | some rows =>
           if (parse_csv_boxes rows).isEmpty then
             annBlock exFS1.images exFS1.csvs "healthy" ".png" "a" j b =
               [syntheticAnn b j (category_id_map "healthy")
                 (image_size exFS1.images "healthy" "a" ".png").1
                 (image_size exFS1.images "healthy" "a" ".png").2]
           else
             (annBlock exFS1.images exFS1.csvs "healthy" ".png" "a" j b).length =
               (parse_csv_boxes rows).length
         | none =>
           annBlock exFS1.images exFS1.csvs "healthy" ".png" "a" j b =
             [syntheticAnn b j (category_id_map "healthy")
               (image_size exFS1.images "healthy" "a" ".png").1
               (image_size exFS1.images "healthy" "a" ".png").2]) :=
  ⟨rfl, by decide, claim_C1 exFS1 "a" "healthy" ".png" rfl (by decide)⟩

/-- Example row with no explicit label column, accepted (positive w/h). -/
def exRowNoLabel : Row :=
  [("#item", .intVal 0), ("x", .intVal 0), ("y", .intVal 0),
   ("w", .intVal 2), ("h", .intVal 2)]

/-- Example filesystem: a background-subcategory image whose CSV has one
accepted row with no label column. -/
def exFS2 : FS :=
  ⟨some ["b"], [⟨"background", "b", ".png", 4, 3⟩],
   [⟨"background", "b", [exRowNoLabel]⟩]⟩

/-- C2: the claim (like the code's own inline comment) says an accepted row
without an explicit label gets the matched subcategory's default category
id.  The code instead stores the unconditional default 1 in every parsed
box, so the subcategory-based fallback in collect_annotations_for_split is
dead code: at the input below (background image, one accepted unlabeled
row) the emitted category_id is 1 although the background default is 2. -/
theorem claim_C2 :
    (collect_annotations_for_split exFS2).2.1.map (fun r => r.category_id) =
        [1] ∧
      category_id_map "background" = 2 :=
  ⟨rfl, rfl⟩

/-- Acceptance predicate in the spec's words: the row carries an item/index
column, every consulted field parses, and width and height are strictly
positive. -/
def rowAccepted (r : Row) : Prop :=
  (hasKey r "#item" = true ∨ hasKey r "item" = true) ∧
    (floatParse (xField r)).isSome = true ∧
    (floatParse (yField r)).isSome = true ∧
    (intParse (labelField r)).isSome = true ∧
    (∃ w : ℚ, floatParse (widthField r) = some w ∧ 0 < w) ∧
    (∃ h : ℚ, floatParse (heightField r) = some h ∧ 0 < h)

/-- C4: a CSV row yields a box if and only if it is accepted in the sense
of `rowAccepted`, and rows are processed independently: the boxes of a file
are the per-row results, so a skipped row never aborts the rest. -/
theorem claim_C4 (rows : List Row) (r : Row) :
    ((parseRow r).isSome = true ↔ rowAccepted r) ∧
      parse_csv_boxes rows = rows.filterMap parseRow := by
  refine ⟨?_, parse_csv_boxes_eq_filterMap rows⟩
  rcases h1 : rowGet r "#item" with _ | v1 <;>
    rcases h2 : rowGet r "item" with _ | v2 <;>
      rcases hx : floatParse (xField r) with _ | x <;>
        rcases hy : floatParse (yField r) with _ | y <;>
          rcases hw : floatParse (widthField r) with _ | w <;>
            rcases hh : floatParse (heightField r) with _ | h <;>
              rcases hl : intParse (labelField r) with _ | lab <;>
                simp [parseRow, rowAccepted, hasKey, h1, h2, hx, hy, hw, hh, hl]

example : parseRow [("x", .intVal 1), ("w", .intVal 3), ("h", .intVal 4)] =
    none := rfl

example : parseRow [("#item", .intVal 0), ("x", .junk), ("w", .intVal 3),
    ("h", .intVal 4)] = none := rfl

example : parseRow [("#item", .intVal 0), ("w", .intVal 3), ("h", .intVal 4),
    ("label", .floatVal (5 / 2))] = none := rfl

example : parseRow [("item", .intVal 0), ("dx", .intVal 3), ("dy", .intVal 4)] =
    some ⟨[0, 0, 3, 4], 3 * 4, 1⟩ := rfl

example : parseRow [("#item", .intVal 0), ("w", .intVal 0), ("h", .intVal 4)] =
    none := rfl

/-- The fallback enumeration the spec describes: base names of image files
with any recognized extension under the known subcategories' image
directories. -/
def specFallbackStems (imgs : List ImgFile) : List String :=
  (imgs.filter (fun i =>
    subcategory_names.contains i.subcat && extOrder.contains i.ext)).map
    (fun i => i.stem)

/-- C5 (amended): when the split file is missing or has no non-blank
lines, the aggregator falls back to scanning directories, but the scan
enumerates every subdirectory other than `sets` and only the extensions
`.png`, `.jpg`, `.JPG` — not the full recognized-extension list. -/
theorem claim_C5 (fs : FS) (hempty : read_split_list fs.splitLines = []) :
    splitStems fs = fallbackStems fs.images ∧
      ∀ st, st ∈ sortedStems fs ↔
        ∃ img ∈ fs.images, img.subcat ≠ "sets" ∧ img.ext ∈ globExts ∧
          img.stem = st := by
  have h1 : splitStems fs = fallbackStems fs.images := by
    unfold splitStems
    rw [hempty]
    rfl
  refine ⟨h1, fun st => ?_⟩
  rw [mem_sortedStems, h1]
  unfold fallbackStems
  simp only [List.mem_map, List.mem_filter, Bool.and_eq_true,
    Bool.not_eq_true', beq_eq_false_iff_ne, ne_eq]
  constructor
  · rintro ⟨i, ⟨hi, hsub, hcont⟩, hstem⟩
    exact ⟨i, hi, hsub, List.mem_of_elem_eq_true hcont, hstem⟩
  · rintro ⟨i, hi, hsub, hext, hstem⟩
    exact ⟨i, ⟨hi, hsub, List.elem_eq_true_of_mem hext⟩, hstem⟩

/-- Example filesystem: no split file, one healthy image stored as `a.PNG`
(an extension the resolution loop accepts but the fallback glob does not
enumerate). -/
def exFS5 : FS := ⟨none, [⟨"healthy", "a", ".PNG", 2, 2⟩], []⟩

theorem claim_C5_counterexample :
    read_split_list exFS5.splitLines = [] ∧
      specFallbackStems exFS5.images = ["a"] ∧
      sortedStems exFS5 = [] ∧
      (collect_annotations_for_split exFS5).1 = [] :=
  ⟨rfl, rfl, rfl, rfl⟩

/-- Example filesystem: no split file, one healthy image `c.png`. -/
def exFS5w : FS := ⟨none, [⟨"healthy", "c", ".png", 2, 2⟩], []⟩

theorem claim_C5_witness :
    read_split_list exFS5w.splitLines = [] ∧
      ("c" ∈ sortedStems exFS5w ↔
        ∃ img ∈ exFS5w.images, img.subcat ≠ "sets" ∧ img.ext ∈ globExts ∧
          img.stem = "c") :=
  ⟨rfl, (claim_C5 exFS5w rfl).2 "c"⟩

/-- C6 (amended): every emitted bounding box is a 4-list [x,y,w,h] with
w > 0 and h > 0 and with x,y ≥ 0, provided every image file has positive
pixel dimensions and every accepted CSV row carries non-negative x and y
values; the code itself never checks x or y, so a negative CSV coordinate
is emitted unchanged. -/
theorem claim_C6 (fs : FS)
    (hdim : ∀ img ∈ fs.images, 0 < img.width ∧ 0 < img.height)
    (hxy : ∀ c ∈ fs.csvs, ∀ b ∈ parse_csv_boxes c.rows,
      0 ≤ b.bbox.getD 0 0 ∧ 0 ≤ b.bbox.getD 1 0)
    (r : AnnRec) (hr : r ∈ (collect_annotations_for_split fs).2.1) :
    ∃ x y w h : ℚ, r.bbox = [x, y, w, h] ∧ 0 ≤ x ∧ 0 ≤ y ∧ 0 < w ∧ 0 < h := by
  obtain ⟨stem, s, e, j, b, hres, hblk⟩ :=
    processStems_mem_shape fs.images fs.csvs (sortedStems fs) 1 1 r hr
  obtain ⟨him, hcase⟩ := mem_annBlock hblk
  rcases hcase with hsyn | ⟨rows, hcsv, bx, hbx, hbb, har, hcrowd⟩
  · obtain ⟨img, himgmem, hsize⟩ := image_size_mem (resolve_hasImage hres)
    obtain ⟨hw, hh⟩ := hdim img himgmem
    have e1 : (image_size fs.images s stem e).1 = img.width := by rw [hsize]
    have e2 : (image_size fs.images s stem e).2 = img.height := by rw [hsize]
    refine ⟨0, 0, ((image_size fs.images s stem e).1 : ℚ),
      ((image_size fs.images s stem e).2 : ℚ), ?_, le_refl 0, le_refl 0, ?_, ?_⟩
    · rw [hsyn]
      rfl
    · rw [e1]
      exact_mod_cast hw
    · rw [e2]
      exact_mod_cast hh
  · obtain ⟨x, y, w, hq, hbbx, harea, hwpos, hhpos⟩ := mem_parse_csv_boxes_shape hbx
    obtain ⟨c, hcmem, hcrows⟩ := findCsv_mem hcsv
    have hbx' : bx ∈ parse_csv_boxes c.rows := by rw [hcrows]; exact hbx
    have hxy' := hxy c hcmem bx hbx'
    refine ⟨x, y, w, hq, by rw [hbb, hbbx], ?_, ?_, hwpos, hhpos⟩
    · have h0 := hxy'.1
      rw [hbbx] at h0
      simpa using h0
    · have h0 := hxy'.2
      rw [hbbx] at h0
      simpa using h0

/-- Example row whose x coordinate is negative but which is accepted. -/
def exRowNeg : Row :=
  [("#item", .intVal 0), ("x", .intVal (-1)), ("y", .intVal 0),
   ("w", .intVal 2), ("h", .intVal 2)]

/-- Example filesystem: a healthy image whose CSV row has x = -1. -/
def exFS6 : FS :=
  ⟨some ["a"], [⟨"healthy", "a", ".png", 5, 5⟩], [⟨"healthy", "a", [exRowNeg]⟩]⟩

theorem claim_C6_counterexample :
    (collect_annotations_for_split exFS6).2.1.map (fun r => r.bbox.getD 0 0) =
        [-1] ∧
      ((-1 : ℚ) < 0) :=
  ⟨rfl, by decide⟩

theorem claim_C6_witness :
    ∃ x y w h : ℚ, (syntheticAnn 1 1 1 3 2).bbox = [x, y, w, h] ∧
      0 ≤ x ∧ 0 ≤ y ∧ 0 < w ∧ 0 < h :=
  claim_C6 exFS1 (by decide) (by decide) (syntheticAnn 1 1 1 3 2)
    (List.Mem.head _)

/-- The path key identifying an image file on disk. -/
def imgKey (i : ImgFile) : String × String × String := (i.subcat, i.stem, i.ext)

/-- The path key identifying a CSV file on disk. -/
def csvKey (c : CsvFile) : String × String := (c.subcat, c.stem)

theorem image_size_perm {I₁ I₂ : List ImgFile} (h : I₁.Perm I₂)
    (hk : (I₁.map imgKey).Nodup) (s stem e : String) :
    image_size I₁ s stem e = image_size I₂ s stem e := by
  have hu : ∀ x ∈ I₁, ∀ y ∈ I₁,
      (x.subcat == s && x.stem == stem && x.ext == e) = true →
      (y.subcat == s && y.stem == stem && y.ext == e) = true → x = y := by
    intro x hx y hy hpx hpy
    simp only [Bool.and_eq_true, beq_iff_eq] at hpx hpy
    apply List.inj_on_of_nodup_map hk hx hy
    unfold imgKey
    rw [hpx.1.1, hpx.1.2, hpx.2, hpy.1.1, hpy.1.2, hpy.2]
  unfold image_size
  rw [find?_perm_unique h hu]

theorem findCsv_perm {C₁ C₂ : List CsvFile} (h : C₁.Perm C₂)
    (hk : (C₁.map csvKey).Nodup) (s stem : String) :
    findCsv C₁ s stem = findCsv C₂ s stem := by
  have hu : ∀ x ∈ C₁, ∀ y ∈ C₁,
      (x.subcat == s && x.stem == stem) = true →
      (y.subcat == s && y.stem == stem) = true → x = y := by
    intro x hx y hy hpx hpy
    simp only [Bool.and_eq_true, beq_iff_eq] at hpx hpy
    apply List.inj_on_of_nodup_map hk hx hy
    unfold csvKey
    rw [hpx.1, hpx.2, hpy.1, hpy.2]
  unfold findCsv
  rw [find?_perm_unique h hu]

/-- C10: the aggregation is a function of the filesystem contents alone:
two filesystems with the same split file and the same image and CSV files
(in any enumeration order, each path occurring once) produce identical
(images, annotations, categories) triples, and the categories component is
always the fixed two-element list. -/
theorem claim_C10 (fs₁ fs₂ : FS)
    (hs : fs₁.splitLines = fs₂.splitLines)
    (hi : fs₁.images.Perm fs₂.images)
    (hc : fs₁.csvs.Perm fs₂.csvs)
    (hki : (fs₁.images.map imgKey).Nodup)
    (hkc : (fs₁.csvs.map csvKey).Nodup) :
    collect_annotations_for_split fs₁ = collect_annotations_for_split fs₂ ∧
      (collect_annotations_for_split fs₁).2.2 = cocoCategories := by
  refine ⟨?_, rfl⟩
  have hsorted : sortedStems fs₁ = sortedStems fs₂ := by
    unfold sortedStems splitStems
    rw [hs]
    by_cases hre : (read_split_list fs₂.splitLines).isEmpty
    · rw [if_pos hre, if_pos hre]
      apply sortedStems_eq_of_perm
      unfold fallbackStems
      exact (hi.filter _).map _
    · rw [if_neg hre, if_neg hre]
  have hps : processStems fs₁.images fs₁.csvs (sortedStems fs₂) 1 1 =
      processStems fs₂.images fs₂.csvs (sortedStems fs₂) 1 1 :=
    processStems_congr (fun s stem e => any_perm hi)
      (fun s stem e => image_size_perm hi hki s stem e)
      (fun s stem => findCsv_perm hc hkc s stem) (sortedStems fs₂) 1 1
  unfold collect_annotations_for_split
  rw [hsorted, hps]

/-- Example filesystems with identical contents listed in different orders. -/
def exFS10a : FS :=
  ⟨some ["a", "b"],
   [⟨"healthy", "a", ".png", 3, 2⟩, ⟨"background", "b", ".jpg", 5, 5⟩],
   [⟨"background", "b", [exRowNoLabel]⟩]⟩

/-- The same filesystem as `exFS10a` with the image list reversed. -/
def exFS10b : FS :=
  ⟨some ["a", "b"],
   [⟨"background", "b", ".jpg", 5, 5⟩, ⟨"healthy", "a", ".png", 3, 2⟩],
   [⟨"background", "b", [exRowNoLabel]⟩]⟩

theorem claim_C10_witness :
    collect_annotations_for_split exFS10a = collect_annotations_for_split exFS10b ∧
      (collect_annotations_for_split exFS10a).2.2 = cocoCategories :=
  claim_C10 exFS10a exFS10b rfl (by decide) (by decide) (by decide) (by decide)
